import Mathlib

/-!
Verification development for the torchext data pipeline (src/torchext/data.py).

The parallel ordered map stage (`MappedDataset`) is embedded as follows:
* items travelling on the result queue are `Msg` values: either a worker's
  termination sentinel (`Msg.done`, Python's `None`) or a `Result`
  (`Msg.result job_id data`);
* Python's `heapq` over `Result` values (whose `__lt__`/`__eq__` compare
  `job_id` only) is modelled as a list kept sorted by `job_id`, min first:
  `heappush` is ordered insertion, `heappop`/`[0]` take the head — the same
  observable priority-queue behaviour for the distinct keys that occur;
* the consumer loop of `MappedDataset.__iter__` becomes the recursive
  function `consumeAux`, which returns the yielded results in order, the
  final pending heap (`self.results` at the terminal `assert`) and the part
  of the result-queue stream never taken;
* an arrival order of the result queue is an `Interleaving` of the per-worker
  output lists, each worker's outputs produced by `Worker.run` (`workerRun`).

The sequential stages (`ShuffledDataset`, `BatchedDataset`, `BucketDataset`)
are embedded as pure list functions further below.
-/

/-- An item on the result queue: a worker sentinel (`None`) or a
`Result(job_id, data)`. -/
inductive Msg (β : Type) : Type
  | done : Msg β
  | result : Nat → β → Msg β
  deriving DecidableEq, Repr

/-- `heapq.heappush` on `Result`s compared by `job_id`: ordered insertion
into a job-id-sorted list. -/
def heapPush {β : Type} (r : Nat × β) : List (Nat × β) → List (Nat × β)
  | [] => [r]
  | x :: xs => if r.1 < x.1 then r :: x :: xs else x :: heapPush r xs

theorem length_heapPush {β : Type} (r : Nat × β) (l : List (Nat × β)) :
    (heapPush r l).length = l.length + 1 := by
  induction l with
  | nil => rfl
  | cons x xs ih =>
    unfold heapPush
    split
    · simp
    · simp [ih]

/-- The consumer loop of `MappedDataset.__iter__`, run to completion on a
given arrival stream.  State: `next` (`next_job_id`), `endCount`
(`end_count`), `heap` (`self.results`).  The guard
`self.results and self.results[0].job_id == next_job_id` is the heap being
`r :: rest` with `r.1 = next` (the head of the sorted list is `heapq`'s
minimum); when it fails, one item is taken from the result queue, a
sentinel bumps `end_count` and a result is pushed onto the heap.  Returns
`(emitted, finalHeap, unreadStream)`: the `(job_id, data)` pairs popped and
yielded in order, the pending heap when the loop exits (`self.results` at
the terminal `assert`), and the part of the stream never taken from the
queue. -/
def consumeAux {β : Type} (W next endCount : Nat) (heap : List (Nat × β))
    (stream : List (Msg β)) : List (Nat × β) × List (Nat × β) × List (Msg β) :=
  if endCount < W then
    match heap with
    | r :: rest =>
      if r.1 = next then
        let k := consumeAux W (next + 1) endCount rest stream
        (r :: k.1, k.2)
      else
        match stream with
        | [] => ([], r :: rest, [])
        | Msg.done :: tl => consumeAux W next (endCount + 1) (r :: rest) tl
        | Msg.result j d :: tl =>
          consumeAux W next endCount (heapPush (j, d) (r :: rest)) tl
    | [] =>
      match stream with
      | [] => ([], [], [])
      | Msg.done :: tl => consumeAux W next (endCount + 1) [] tl
      | Msg.result j d :: tl => consumeAux W next endCount (heapPush (j, d) []) tl
  else ([], heap, stream)
termination_by 2 * stream.length + heap.length
decreasing_by
  · simp only [List.length_cons]
    omega
  · simp only [List.length_cons]
    omega
  · rw [length_heapPush]
    simp only [List.length_cons]
    omega
  · simp only [List.length_cons, List.length_nil]
    omega
  · rw [length_heapPush]
    simp only [List.length_cons, List.length_nil]
    omega

/-- `MappedDataset.__iter__` as a whole: start from `next_job_id = 0`,
`end_count = 0`, empty pending heap, and yield the data of each emitted
result. -/
def mappedIter {β : Type} (W : Nat) (stream : List (Msg β)) : List β :=
  (consumeAux W 0 0 [] stream).1.map Prod.snd

/-- `Worker.run`: take items off the job queue; a `None` sentinel stops the
loop and a final `None` is put on the result queue; a job `(job_id, data)`
is transformed and put as `Result(job_id, target(data))`.  An empty take
list produces nothing (the worker would still be blocked). -/
def workerRunRaw {α β : Type} (f : α → β) : List (Option (Nat × α)) → List (Msg β)
  | [] => []
  | none :: _ => [Msg.done]
  | some (i, a) :: rest => Msg.result i (f a) :: workerRunRaw f rest

/-- A worker that receives exactly the jobs `jobs` followed by one sentinel. -/
def workerRun {α β : Type} (f : α → β) (jobs : List (Nat × α)) : List (Msg β) :=
  workerRunRaw f (jobs.map some ++ [none])

theorem workerRun_eq {α β : Type} (f : α → β) (jobs : List (Nat × α)) :
    workerRun f jobs
      = jobs.map (fun p => Msg.result p.1 (f p.2)) ++ [Msg.done] := by
  induction jobs with
  | nil => rfl
  | cons x xs ih =>
    cases x
    simpa [workerRun, workerRunRaw] using ih

/-- `MappedDataset.assign_jobs`, the enumeration loop: enqueue `(i, sample)`
for each source element, tags starting at `i`. -/
def assignJobsGo {α : Type} (i : Nat) (W : Nat) : List α → List (Option (Nat × α))
  | [] => List.replicate W none
  | x :: xs => some (i, x) :: assignJobsGo (i + 1) W xs

/-- `MappedDataset.assign_jobs`: the whole job-queue content — enumerated
jobs in source order, then one `None` sentinel per worker. -/
def assignJobs {α : Type} (input : List α) (W : Nat) : List (Option (Nat × α)) :=
  assignJobsGo 0 W input

/-- An arrival order at the result queue: `Interleaving ls out` holds when
`out` can be formed by repeatedly taking the head of one of the lists in
`ls`, so each list's internal order is preserved in `out`. -/
inductive Interleaving {γ : Type} : List (List γ) → List γ → Prop
  | nil (ls : List (List γ)) (h : ∀ l ∈ ls, l = []) : Interleaving ls []
  | cons (ls : List (List γ)) (i : Nat) (x : γ) (tl : List γ) (out : List γ)
      (hget : ls[i]? = some (x :: tl))
      (htail : Interleaving (ls.set i tl) out) : Interleaving ls (x :: out)

theorem flatten_set_perm {γ : Type} :
    ∀ (ls : List (List γ)) (i : Nat) (x : γ) (tl : List γ),
      ls[i]? = some (x :: tl) →
      ls.flatten.Perm (x :: (ls.set i tl).flatten) := by
  intro ls
  induction ls with
  | nil => intro i x tl h; simp at h
  | cons a rest ih =>
    intro i x tl h
    cases i with
    | zero =>
      simp only [List.getElem?_cons_zero, Option.some_inj] at h
      subst h
      simp
    | succ j =>
      simp only [List.getElem?_cons_succ] at h
      have h2 := ih j x tl h
      simp only [List.set_cons_succ, List.flatten_cons]
      exact (h2.append_left a).trans List.perm_middle

theorem Interleaving.perm_flatten {γ : Type} {ls : List (List γ)} {out : List γ}
    (h : Interleaving ls out) : out.Perm ls.flatten := by
  induction h with
  | nil ls h => rw [List.flatten_eq_nil_iff.mpr h]
  | cons ls i x tl out hget htail ih =>
    exact (ih.cons x).trans (flatten_set_perm ls i x tl hget).symm

theorem Interleaving.mem_out {γ : Type} {ls : List (List γ)} {out : List γ}
    (h : Interleaving ls out) {l : List γ} {a : γ} (hl : l ∈ ls) (ha : a ∈ l) :
    a ∈ out :=
  h.perm_flatten.mem_iff.mpr (List.mem_flatten_of_mem hl ha)

/-- Every suffix of the stream that still holds a `Result` also holds a
sentinel: each `Result` is followed (later in arrival order) by at least
one sentinel. -/
def SuffixOk {β : Type} (stream : List (Msg β)) : Prop :=
  ∀ t, t <:+ stream → (∃ i d, Msg.result i d ∈ t) → Msg.done ∈ t

/-- Shape of (a tail of) one worker's output on the result queue: either
already fully consumed, or some non-sentinel results followed by exactly
one sentinel. -/
def WOk {β : Type} (l : List (Msg β)) : Prop :=
  l = [] ∨ ∃ rs : List (Msg β), (∀ m ∈ rs, m ≠ Msg.done) ∧ l = rs ++ [Msg.done]

theorem WOk.workerRun {α β : Type} (f : α → β) (jobs : List (Nat × α)) :
    WOk (workerRun f jobs) := by
  refine Or.inr ⟨jobs.map (fun p => Msg.result p.1 (f p.2)), ?_, workerRun_eq f jobs⟩
  intro m hm
  rcases List.mem_map.mp hm with ⟨p, _, rfl⟩
  simp

theorem interleaving_suffixOk {β : Type} :
    ∀ {ls : List (List (Msg β))} {out : List (Msg β)},
      Interleaving ls out → (∀ l ∈ ls, WOk l) → SuffixOk out := by
  intro ls out h
  induction h with
  | nil ls h =>
    intro _ t ht ⟨i, d, hmem⟩
    rw [List.suffix_nil.mp ht] at hmem
    simp at hmem
  | cons ls i x tl out hget htail ih =>
    intro hwok
    have hlt : i < ls.length := (List.getElem?_eq_some_iff.mp hget).1
    have hwok' : ∀ l ∈ ls.set i tl, WOk l := by
      intro l hl
      rcases List.mem_or_eq_of_mem_set hl with h1 | h1
      · exact hwok l h1
      · subst h1
        have hx : (x :: l) ∈ ls := by
          have := List.getElem?_eq_some_iff.mp hget
          exact this.2 ▸ List.getElem_mem this.1
        rcases hwok _ hx with h2 | ⟨rs, hrs, h2⟩
        · cases h2
        · cases rs with
          | nil =>
            simp only [List.nil_append, List.cons.injEq] at h2
            exact Or.inl h2.2
          | cons r rs' =>
            simp only [List.cons_append, List.cons.injEq] at h2
            exact Or.inr ⟨rs', fun m hm => hrs m (List.mem_cons_of_mem r hm), h2.2⟩
    have ihs := ih hwok'
    intro t ht hres
    rcases List.suffix_cons_iff.mp ht with rfl | ht'
    · -- the suffix is the whole remaining stream `x :: out`
      by_cases hx : x = Msg.done
      · exact hx ▸ List.mem_cons_self _ _
      · -- `x` is not the sentinel, so the rest of its worker's list still
        -- holds one, and that sentinel occurs in `out`
        have hwx : WOk (x :: tl) := by
          have := List.getElem?_eq_some_iff.mp hget
          exact hwok _ (this.2 ▸ List.getElem_mem this.1)
        rcases hwx with h2 | ⟨rs, hrs, h2⟩
        · cases h2
        · cases rs with
          | nil =>
            simp only [List.nil_append, List.cons.injEq] at h2
            exact absurd h2.1 hx
          | cons r rs' =>
            simp only [List.cons_append, List.cons.injEq] at h2
            have hdone : Msg.done ∈ tl := by
              rw [h2.2]
              exact List.mem_append_right _ (List.mem_singleton.mpr rfl)
            have htl : tl ∈ ls.set i tl := List.mem_set ls i hlt tl
            exact List.mem_cons_of_mem x (htail.mem_out htl hdone)
    · exact ihs t ht' hres

theorem mem_heapPush {β : Type} {r p : Nat × β} {l : List (Nat × β)} :
    p ∈ heapPush r l ↔ p = r ∨ p ∈ l := by
  induction l with
  | nil => simp [heapPush]
  | cons x xs ih =>
    unfold heapPush
    split
    · simp
    · simp only [List.mem_cons, ih]
      tauto

theorem countP_heapPush {β : Type} (q : Nat × β → Bool) (r : Nat × β)
    (l : List (Nat × β)) :
    (heapPush r l).countP q = l.countP q + (if q r then 1 else 0) := by
  induction l with
  | nil => simp [heapPush, List.countP_cons]
  | cons x xs ih =>
    unfold heapPush
    split
    · simp only [List.countP_cons]
    · simp only [List.countP_cons, ih]
      omega

theorem pairwise_heapPush {β : Type} {r : Nat × β} {l : List (Nat × β)}
    (hl : l.Pairwise (fun p q => p.1 < q.1)) (hr : ∀ p ∈ l, p.1 ≠ r.1) :
    (heapPush r l).Pairwise (fun p q => p.1 < q.1) := by
  induction l with
  | nil => simp [heapPush]
  | cons x xs ih =>
    rcases List.pairwise_cons.mp hl with ⟨hx, hxs⟩
    unfold heapPush
    split
    · refine List.pairwise_cons.mpr ⟨?_, hl⟩
      intro p hp
      rcases List.mem_cons.mp hp with rfl | hp'
      · assumption
      · exact Nat.lt_trans (by assumption) (hx p hp')
    · refine List.pairwise_cons.mpr ⟨?_, ih hxs (fun p hp => hr p (List.mem_cons_of_mem x hp))⟩
      intro p hp
      rcases mem_heapPush.mp hp with rfl | hp'
      · have h2 := hr x (List.mem_cons_self x xs)
        omega
      · exact hx p hp'

/-- Is this result-queue item the termination sentinel? -/
def isDone {β : Type} : Msg β → Bool
  | Msg.done => true
  | Msg.result _ _ => false

/-- Is this item a `Result` with the given `job_id`? -/
def resultId {β : Type} (i : Nat) : Msg β → Bool
  | Msg.done => false
  | Msg.result j _ => j = i


theorem consumeAux_pop {β : Type} {W next endCount : Nat} {r : Nat × β}
    {rest : List (Nat × β)} {stream : List (Msg β)}
    (hlt : endCount < W) (hr : r.1 = next) :
    consumeAux W next endCount (r :: rest) stream
      = (r :: (consumeAux W (next + 1) endCount rest stream).1,
         (consumeAux W (next + 1) endCount rest stream).2) := by
  conv_lhs => rw [consumeAux.eq_def]
  simp [if_pos hlt, hr]

theorem consumeAux_take {β : Type} {W next endCount : Nat} {heap : List (Nat × β)}
    (hlt : endCount < W) (hnr : ∀ r rest, heap = r :: rest → r.1 ≠ next) :
    consumeAux W next endCount heap ([] : List (Msg β)) = ([], heap, [])
    ∧ (∀ tl, consumeAux W next endCount heap (Msg.done :: tl)
        = consumeAux W next (endCount + 1) heap tl)
    ∧ (∀ j d tl, consumeAux W next endCount heap (Msg.result j d :: tl)
        = consumeAux W next endCount (heapPush (j, d) heap) tl) := by
  cases heap with
  | nil =>
    refine ⟨?_, fun tl => ?_, fun j d tl => ?_⟩ <;>
      (conv_lhs => rw [consumeAux.eq_def]) <;> simp [if_pos hlt]
  | cons r rest =>
    have hne : ¬ r.1 = next := hnr r rest rfl
    refine ⟨?_, fun tl => ?_, fun j d tl => ?_⟩ <;>
      (conv_lhs => rw [consumeAux.eq_def]) <;> simp [if_pos hlt, hne]

theorem consumeAux_stop {β : Type} {W next endCount : Nat} {heap : List (Nat × β)}
    {stream : List (Msg β)} (hge : ¬ endCount < W) :
    consumeAux W next endCount heap stream = ([], heap, stream) := by
  conv_lhs => rw [consumeAux.eq_def]
  simp [if_neg hge]

theorem consumeAux_fst_indices {β : Type} (W : Nat) :
    ∀ (next endCount : Nat) (heap : List (Nat × β)) (stream : List (Msg β)),
      (consumeAux W next endCount heap stream).1.map Prod.fst
        = List.range' next (consumeAux W next endCount heap stream).1.length := by
  intro next endCount heap stream
  induction next, endCount, heap, stream using consumeAux.induct W with
  | case1 endCount stream hlt r rest ih =>
    rw [consumeAux_pop hlt rfl]
    simp only [List.map_cons, List.length_cons, List.range'_succ]
    exact congrArg _ ih
  | case2 next endCount hlt r rest hne =>
    rw [(consumeAux_take hlt (fun r' rest' he hr => hne (by cases he; exact hr))).1]
    simp
  | case3 next endCount hlt r rest hne tl ih =>
    rw [(consumeAux_take hlt (fun r' rest' he hr => hne (by cases he; exact hr))).2.1]
    exact ih
  | case4 next endCount hlt r rest hne j d tl ih =>
    rw [(consumeAux_take hlt (fun r' rest' he hr => hne (by cases he; exact hr))).2.2]
    exact ih
  | case5 next endCount hlt =>
    rw [(consumeAux_take hlt (fun r' rest' he => by cases he)).1]
    simp
  | case6 next endCount hlt tl ih =>
    rw [(consumeAux_take hlt (fun r' rest' he => by cases he)).2.1]
    exact ih
  | case7 next endCount hlt j d tl ih =>
    rw [(consumeAux_take hlt (fun r' rest' he => by cases he)).2.2]
    exact ih
  | case8 next endCount heap stream hge =>
    rw [consumeAux_stop hge]
    simp

/-- Consumer-loop invariant tying the loop state to the expected output list
`outs` (`[transform(e) for e in input]`): the pending heap is sorted with
distinct ids at least `next` and correct data; every result still in the
stream carries correct data; the stream holds one sentinel per worker not
yet counted; every expected index is accounted for exactly once — already
emitted (`i < next`), pending in the heap, or still in the stream; and every
result in the stream is followed by a sentinel. -/
structure ConsumerInv {β : Type} (outs : List β) (W next endCount : Nat)
    (heap : List (Nat × β)) (stream : List (Msg β)) : Prop where
  sorted : heap.Pairwise (fun p q => p.1 < q.1)
  heapGe : ∀ p ∈ heap, next ≤ p.1
  heapData : ∀ p ∈ heap, outs[p.1]? = some p.2
  streamData : ∀ i d, Msg.result i d ∈ stream → outs[i]? = some d
  dones : stream.countP isDone = W - endCount
  ecLt : endCount < W
  counts : ∀ i, stream.countP (resultId i)
      + heap.countP (fun p => p.1 = i)
      + (if i < next then 1 else 0) = (if i < outs.length then 1 else 0)
  sfx : SuffixOk stream

theorem ConsumerInv.not_nil_stream {β : Type} {outs : List β} {W next endCount : Nat}
    {heap : List (Nat × β)} (h : ConsumerInv outs W next endCount heap []) : False := by
  have h1 := h.dones
  have h2 := h.ecLt
  simp only [List.countP_nil] at h1
  omega

theorem tail_nil_of_no_dones {β : Type} {tl : List (Msg β)}
    (h0 : tl.countP isDone = 0) (hs : SuffixOk (Msg.done :: tl)) : tl = [] := by
  rw [List.eq_nil_iff_forall_not_mem]
  intro m hm
  have hnotdone : Msg.done ∉ tl := by
    intro hd
    have := List.countP_pos_iff.mpr ⟨Msg.done, hd, (rfl : isDone (Msg.done : Msg β) = true)⟩
    omega
  cases m with
  | done => exact hnotdone hm
  | result i d =>
    exact hnotdone (hs tl (List.suffix_cons Msg.done tl) ⟨i, d, hm⟩)

theorem ConsumerInv.done_step {β : Type} {outs : List β} {W next endCount : Nat}
    {heap : List (Nat × β)} {tl : List (Msg β)}
    (hInv : ConsumerInv outs W next endCount heap (Msg.done :: tl))
    (hW2 : endCount + 1 < W) :
    ConsumerInv outs W next (endCount + 1) heap tl := by
  have hdones := hInv.dones
  simp [List.countP_cons, isDone] at hdones
  refine ⟨hInv.sorted, hInv.heapGe, hInv.heapData,
    fun i d hm => hInv.streamData i d (List.mem_cons_of_mem _ hm),
    by omega, hW2, ?_, ?_⟩
  · intro i
    have h := hInv.counts i
    simpa [List.countP_cons, resultId] using h
  · intro t ht hres
    exact hInv.sfx t (ht.trans (List.suffix_cons _ _)) hres

theorem ConsumerInv.result_step {β : Type} {outs : List β} {W next endCount : Nat}
    {heap : List (Nat × β)} {j : Nat} {d : β} {tl : List (Msg β)}
    (hInv : ConsumerInv outs W next endCount heap (Msg.result j d :: tl)) :
    ConsumerInv outs W next endCount (heapPush (j, d) heap) tl := by
  have hj := hInv.counts j
  simp only [List.countP_cons, resultId, decide_eq_true_eq] at hj
  have hkey : heap.countP (fun p => p.1 = j) = 0 ∧ next ≤ j := by
    split_ifs at hj <;> omega
  have hne_ids : ∀ p ∈ heap, p.1 ≠ j := by
    intro p hp
    have := List.countP_eq_zero.mp hkey.1 p hp
    simpa using this
  refine ⟨pairwise_heapPush hInv.sorted hne_ids, ?_, ?_,
    fun i d' hm => hInv.streamData i d' (List.mem_cons_of_mem _ hm),
    ?_, hInv.ecLt, ?_, ?_⟩
  · intro p hp
    rcases mem_heapPush.mp hp with rfl | hp'
    · exact hkey.2
    · exact hInv.heapGe p hp'
  · intro p hp
    rcases mem_heapPush.mp hp with rfl | hp'
    · exact hInv.streamData j d (List.mem_cons_self _ _)
    · exact hInv.heapData p hp'
  · have := hInv.dones
    simpa [List.countP_cons, isDone] using this
  · intro i
    have h := hInv.counts i
    simp only [List.countP_cons, resultId, decide_eq_true_eq] at h ⊢
    rw [countP_heapPush]
    simp only [decide_eq_true_eq]
    split_ifs at h ⊢ <;> omega
  · intro t ht hres
    exact hInv.sfx t (ht.trans (List.suffix_cons _ _)) hres

theorem consumeAux_master {β : Type} (outs : List β) (W : Nat) :
    ∀ (next endCount : Nat) (heap : List (Nat × β)) (stream : List (Msg β)),
      ConsumerInv outs W next endCount heap stream →
      (consumeAux W next endCount heap stream).1.map Prod.snd = outs.drop next
      ∧ (consumeAux W next endCount heap stream).2.1 = []
      ∧ (consumeAux W next endCount heap stream).2.2 = [] := by
  intro next endCount heap stream
  induction next, endCount, heap, stream using consumeAux.induct W with
  | case1 endCount stream hlt r rest ih =>
    intro hInv
    rw [consumeAux_pop hlt rfl]
    have hd := hInv.heapData r (List.mem_cons_self r rest)
    rcases List.getElem?_eq_some_iff.mp hd with ⟨hlen, hget⟩
    have hpair := List.pairwise_cons.mp hInv.sorted
    have hInv' : ConsumerInv outs W (r.1 + 1) endCount rest stream := by
      refine ⟨hpair.2, fun p hp => hpair.1 p hp,
        fun p hp => hInv.heapData p (List.mem_cons_of_mem r hp),
        hInv.streamData, hInv.dones, hInv.ecLt, ?_, hInv.sfx⟩
      intro i
      have h := hInv.counts i
      simp only [List.countP_cons, decide_eq_true_eq] at h
      split_ifs at h ⊢ <;> omega
    rcases ih hInv' with ⟨h1, h2, h3⟩
    refine ⟨?_, h2, h3⟩
    simp only [List.map_cons, h1]
    rw [List.drop_eq_getElem_cons hlen, hget]
  | case2 next endCount hlt r rest hne =>
    intro hInv
    exact hInv.not_nil_stream.elim
  | case3 next endCount hlt r rest hne tl ih =>
    intro hInv
    rw [(consumeAux_take hlt (fun r' rest' he hr => hne (by cases he; exact hr))).2.1]
    have hdones := hInv.dones
    simp [List.countP_cons, isDone] at hdones
    by_cases hW2 : endCount + 1 < W
    · exact ih (hInv.done_step hW2)
    · -- the sentinel just counted is the last one: contradiction, since the
      -- nonempty pending heap would hold an index never to be emitted
      exfalso
      have htl : tl = [] := tail_nil_of_no_dones (by omega) hInv.sfx
      subst htl
      have hr1 := hInv.heapGe r (List.mem_cons_self r rest)
      have hd := hInv.heapData r (List.mem_cons_self r rest)
      rcases List.getElem?_eq_some_iff.mp hd with ⟨hlen, _⟩
      have hheap0 : (r :: rest).countP (fun p => p.1 = next) = 0 := by
        rw [List.countP_eq_zero]
        intro p hp
        rcases List.mem_cons.mp hp with rfl | hp'
        · simpa using hne
        · have := (List.pairwise_cons.mp hInv.sorted).1 p hp'
          simp only [decide_eq_true_eq]
          omega
      have hcnext := hInv.counts next
      simp only [List.countP_cons, List.countP_nil, resultId, hheap0] at hcnext
      simp at hcnext
      split_ifs at hcnext
      omega
  | case4 next endCount hlt r rest hne j d tl ih =>
    intro hInv
    rw [(consumeAux_take hlt (fun r' rest' he hr => hne (by cases he; exact hr))).2.2]
    exact ih hInv.result_step
  | case5 next endCount hlt =>
    intro hInv
    exact hInv.not_nil_stream.elim
  | case6 next endCount hlt tl ih =>
    intro hInv
    rw [(consumeAux_take hlt (fun r' rest' he => by cases he)).2.1]
    have hdones := hInv.dones
    simp [List.countP_cons, isDone] at hdones
    by_cases hW2 : endCount + 1 < W
    · exact ih (hInv.done_step hW2)
    · -- last sentinel: the loop exits with empty heap, empty stream, and
      -- everything emitted
      have htl : tl = [] := tail_nil_of_no_dones (by omega) hInv.sfx
      subst htl
      rw [consumeAux_stop (by omega)]
      have hnext : outs.length ≤ next := by
        by_contra hlt2
        push_neg at hlt2
        have hc := hInv.counts next
        simp only [List.countP_cons, List.countP_nil, resultId] at hc
        simp at hc
        split_ifs at hc
      exact ⟨by simp [List.drop_eq_nil_of_le hnext], rfl, rfl⟩
  | case7 next endCount hlt j d tl ih =>
    intro hInv
    rw [(consumeAux_take hlt (fun r' rest' he => by cases he)).2.2]
    exact ih hInv.result_step
  | case8 next endCount heap stream hge =>
    intro hInv
    exact absurd hInv.ecLt hge

theorem sum_map_one {γ : Type} (l : List γ) :
    (l.map (fun _ => (1 : Nat))).sum = l.length := by
  induction l with
  | nil => rfl
  | cons x xs ih => simp [ih, Nat.add_comm]

theorem countP_workerRun_isDone {α β : Type} (f : α → β) (jobs : List (Nat × α)) :
    (workerRun f jobs).countP isDone = 1 := by
  rw [workerRun_eq, List.countP_append, List.countP_map]
  have h0 : jobs.countP (isDone ∘ fun p => Msg.result p.1 (f p.2)) = 0 := by
    rw [List.countP_eq_zero]
    intro p _
    simp [isDone, Function.comp]
  rw [h0]
  simp [isDone]

theorem countP_workerRun_resultId {α β : Type} (f : α → β) (jobs : List (Nat × α))
    (i : Nat) :
    (workerRun f jobs).countP (resultId i) = jobs.countP (fun p => p.1 = i) := by
  rw [workerRun_eq, List.countP_append, List.countP_map]
  have h1 : (List.countP (resultId i) [(Msg.done : Msg β)]) = 0 := by simp [resultId]
  rw [h1, Nat.add_zero]
  apply List.countP_congr
  intro p _
  simp [resultId, Function.comp]

theorem countP_range_eq (N i : Nat) :
    (List.range N).countP (fun j => j = i) = if i < N then 1 else 0 := by
  induction N with
  | zero => simp
  | succ n ih =>
    rw [List.range_succ, List.countP_append, ih]
    simp only [List.countP_cons, List.countP_nil, decide_eq_true_eq]
    split_ifs <;> omega

/-- The consumer invariant holds initially: `next_job_id = 0`, `end_count
= 0`, empty heap, and an arrival stream that interleaves the per-worker
outputs for any distribution of the enumerated jobs over `W` workers. -/
theorem initial_inv {α β : Type} (input : List α) (f : α → β) (W : Nat)
    (hW : 1 ≤ W) (jobLists : List (List (Nat × α))) (hlen : jobLists.length = W)
    (hperm : jobLists.flatten.Perm input.enum) (stream : List (Msg β))
    (hint : Interleaving (jobLists.map (workerRun f)) stream) :
    ConsumerInv (input.map f) W 0 0 [] stream := by
  have hstream := hint.perm_flatten
  refine ⟨List.Pairwise.nil, by simp, by simp, ?_, ?_, hW, ?_, ?_⟩
  · -- streamData
    intro i d hm
    have hm2 := hstream.mem_iff.mp hm
    rcases List.mem_flatten.mp hm2 with ⟨wl, hwl, hmem⟩
    rcases List.mem_map.mp hwl with ⟨jobs, hjobs, rfl⟩
    rw [workerRun_eq] at hmem
    rcases List.mem_append.mp hmem with hmem1 | hmem1
    · rcases List.mem_map.mp hmem1 with ⟨p, hp, hpe⟩
      have hpf : p.1 = i ∧ f p.2 = d := by
        constructor <;> { cases hpe; rfl }
      have hpm : p ∈ input.enum :=
        hperm.mem_iff.mp (List.mem_flatten_of_mem hjobs hp)
      have hpg : input[p.1]? = some p.2 := by
        have := List.mk_mem_enum_iff_getElem?.mp (by
          rw [show (p.1, p.2) = p from rfl]
          exact hpm)
        exact this
      rw [List.getElem?_map, ← hpf.1, hpg]
      simp [hpf.2]
    · simp at hmem1
  · -- dones
    rw [hstream.countP_eq, List.countP_flatten, List.map_map, Nat.sub_zero]
    have : jobLists.map (List.countP isDone ∘ workerRun f)
        = jobLists.map (fun _ => 1) := by
      apply List.map_congr_left
      intro jobs _
      exact countP_workerRun_isDone f jobs
    rw [this, sum_map_one, hlen]
  · -- counts
    intro i
    simp only [List.countP_nil, Nat.add_zero, Nat.not_lt_zero, if_neg, List.length_map]
    rw [hstream.countP_eq, List.countP_flatten, List.map_map]
    have h1 : jobLists.map (List.countP (resultId i) ∘ workerRun f)
        = jobLists.map (List.countP (fun p => p.1 = i)) := by
      apply List.map_congr_left
      intro jobs _
      exact countP_workerRun_resultId f jobs i
    rw [h1, ← List.countP_flatten, hperm.countP_eq]
    have h2 : input.enum.countP (fun p => p.1 = i)
        = (input.enum.map Prod.fst).countP (fun j => j = i) := by
      rw [List.countP_map]
      rfl
    rw [h2, List.enum_map_fst, countP_range_eq]
    simp
  · -- suffix property
    refine interleaving_suffixOk hint ?_
    intro l hl
    rcases List.mem_map.mp hl with ⟨jobs, _, rfl⟩
    exact WOk.workerRun f jobs

theorem assignJobsGo_eq {α : Type} (W : Nat) :
    ∀ (xs : List α) (i : Nat),
      assignJobsGo i W xs = (xs.enumFrom i).map some ++ List.replicate W none := by
  intro xs
  induction xs with
  | nil => intro i; rfl
  | cons x xs ih =>
    intro i
    simp only [assignJobsGo, List.enumFrom_cons, List.map_cons, List.cons_append]
    rw [ih]

theorem assignJobs_eq {α : Type} (input : List α) (W : Nat) :
    assignJobs input W = input.enum.map some ++ List.replicate W none :=
  assignJobsGo_eq W input 0

/-- Claim C1: for every finite input, every worker count at least one, and
every arrival order of the workers' results (each worker emitting its
results, in job order, before its single sentinel, and the jobs
partitioning the enumerated input), the parallel map stage emits exactly
the sequential map `input.map f` in input order, its emitted ids being
exactly `0, ..., N-1` once each. -/
theorem mappedDataset_order_preserving {α β : Type} (input : List α) (f : α → β)
    (W : Nat) (hW : 1 ≤ W) (jobLists : List (List (Nat × α)))
    (hlen : jobLists.length = W) (hperm : jobLists.flatten.Perm input.enum)
    (stream : List (Msg β))
    (hint : Interleaving (jobLists.map (workerRun f)) stream) :
    mappedIter W stream = input.map f
    ∧ (consumeAux W 0 0 [] stream).1.map Prod.fst = List.range input.length := by
  have hInv := initial_inv input f W hW jobLists hlen hperm stream hint
  rcases consumeAux_master (input.map f) W 0 0 [] stream hInv with ⟨h1, h2, h3⟩
  have hout : mappedIter W stream = input.map f := by
    unfold mappedIter
    rw [h1, List.drop_zero]
  refine ⟨hout, ?_⟩
  have hlenE : (consumeAux W 0 0 [] stream).1.length = input.length := by
    have := congrArg List.length h1
    simpa using this
  rw [consumeAux_fst_indices W 0 0 [] stream, hlenE, List.range_eq_range']

/-- Claim C2: the reassembly consumer's emitted job ids are exactly the
successive values of the `next_job_id` counter: each popped result has the
id the counter expects, the counter starts at 0 and advances by one per
emission, so for every arrival stream the emitted ids form the strictly
increasing gapless sequence `0, 1, 2, ...`; the yielded payloads are the
data of exactly those results. -/
theorem mapped_emits_in_index_order {β : Type} (W : Nat) (stream : List (Msg β)) :
    (consumeAux W 0 0 [] stream).1.map Prod.fst
      = List.range (consumeAux W 0 0 [] stream).1.length
    ∧ mappedIter W stream = (consumeAux W 0 0 [] stream).1.map Prod.snd := by
  refine ⟨?_, rfl⟩
  rw [consumeAux_fst_indices W 0 0 [] stream, List.range_eq_range']

/-- Claim C3: sentinel shutdown protocol.  After exhausting a source of `N`
elements the dispatcher's queue holds the jobs tagged `0..N-1` in order
followed by exactly one sentinel per worker; a worker that reaches a
sentinel stops (whatever follows), emits exactly one sentinel after its
results, and each non-sentinel `Result` carries its job's index unchanged;
consequently any arrival stream formed by `W` workers carries exactly `W`
sentinels. -/
theorem mapped_sentinel_shutdown {α β : Type} (f : α → β) (input : List α)
    (W : Nat) (jobLists : List (List (Nat × α))) (stream : List (Msg β))
    (hlen : jobLists.length = W)
    (hint : Interleaving (jobLists.map (workerRun f)) stream) :
    assignJobs input W = input.enum.map some ++ List.replicate W none
    ∧ ((assignJobs input W).filterMap id).map Prod.fst = List.range input.length
    ∧ (assignJobs input W).countP Option.isNone = W
    ∧ (∀ (jobs : List (Nat × α)) (junk : List (Option (Nat × α))),
        workerRunRaw f (jobs.map some ++ none :: junk)
          = jobs.map (fun p => Msg.result p.1 (f p.2)) ++ [Msg.done])
    ∧ stream.countP isDone = W := by
  refine ⟨assignJobs_eq input W, ?_, ?_, ?_, ?_⟩
  · rw [assignJobs_eq, List.filterMap_append, List.filterMap_map]
    have h1 : List.filterMap (id ∘ some) input.enum = input.enum :=
      List.filterMap_some input.enum
    have h2 : List.filterMap id (List.replicate W (none : Option (Nat × α))) = [] :=
      List.filterMap_replicate_of_none rfl
    rw [h1, h2, List.append_nil, List.enum_map_fst]
  · rw [assignJobs_eq, List.countP_append, List.countP_map, List.countP_replicate]
    have h1 : input.enum.countP (Option.isNone ∘ some) = 0 := by
      rw [List.countP_eq_zero]
      intro p _
      simp [Function.comp]
    rw [h1]
    simp
  · intro jobs junk
    induction jobs with
    | nil => rfl
    | cons x xs ih =>
      cases x
      simpa [workerRunRaw] using ih
  · rw [hint.perm_flatten.countP_eq, List.countP_flatten, List.map_map]
    have h3 : jobLists.map (List.countP isDone ∘ workerRun f)
        = jobLists.map (fun _ => 1) := by
      apply List.map_congr_left
      intro jobs _
      exact countP_workerRun_isDone f jobs
    rw [h3, sum_map_one, hlen]

/-- Claim C4: the terminal assertion `assert len(self.results) == 0` is
valid: whenever the arrival stream is an interleaving of the workers'
outputs over a partition of the enumerated input (so each index `0..N-1`
arrives exactly once and each worker's results precede its sentinel), the
pending buffer is empty when the consumer loop exits. -/
theorem mapped_pending_buffer_empty {α β : Type} (input : List α) (f : α → β)
    (W : Nat) (hW : 1 ≤ W) (jobLists : List (List (Nat × α)))
    (hlen : jobLists.length = W) (hperm : jobLists.flatten.Perm input.enum)
    (stream : List (Msg β))
    (hint : Interleaving (jobLists.map (workerRun f)) stream) :
    (consumeAux W 0 0 [] stream).2.1 = [] := by
  have hInv := initial_inv input f W hW jobLists hlen hperm stream hint
  exact (consumeAux_master (input.map f) W 0 0 [] stream hInv).2.1

/-- Claim C5: empty source.  With no input elements every worker receives
an empty job list, the stream interleaves one sentinel per worker, and the
consumer yields nothing, exits with an empty pending buffer after
consuming the whole stream, which holds exactly `W` sentinels — no output
and no hang. -/
theorem mapped_empty_source {α β : Type} (f : α → β) (W : Nat) (hW : 1 ≤ W)
    (jobLists : List (List (Nat × α))) (hlen : jobLists.length = W)
    (hperm : jobLists.flatten.Perm (List.enum ([] : List α)))
    (stream : List (Msg β))
    (hint : Interleaving (jobLists.map (workerRun f)) stream) :
    mappedIter W stream = []
    ∧ (consumeAux W 0 0 [] stream).2.1 = []
    ∧ (consumeAux W 0 0 [] stream).2.2 = []
    ∧ stream.countP isDone = W := by
  have hInv := initial_inv ([] : List α) f W hW jobLists hlen hperm stream hint
  rcases consumeAux_master (List.map f []) W 0 0 [] stream hInv with ⟨h1, h2, h3⟩
  refine ⟨?_, h2, h3, ?_⟩
  · unfold mappedIter
    rw [h1]
    rfl
  · have := hInv.dones
    simpa using this

theorem interleaving_witness_a :
    Interleaving ([[(0, 10)], [(1, 20)]].map (workerRun (fun x => x + 1)))
      [Msg.result 1 21, Msg.result 0 11, Msg.done, Msg.done] := by
  refine Interleaving.cons _ 1 _ [Msg.done] _ (by decide) ?_
  refine Interleaving.cons _ 0 _ [Msg.done] _ (by decide) ?_
  refine Interleaving.cons _ 0 _ [] _ (by decide) ?_
  refine Interleaving.cons _ 1 _ [] _ (by decide) ?_
  exact Interleaving.nil _ (by decide)

/-- Witness for C1 at a concrete out-of-order arrival. -/
theorem mappedDataset_order_preserving_witness :
    mappedIter 2 [Msg.result 1 21, Msg.result 0 11, Msg.done, Msg.done]
      = [10, 20].map (fun x => x + 1)
    ∧ (consumeAux 2 0 0 [] [Msg.result 1 21, Msg.result 0 11, Msg.done,
        Msg.done]).1.map Prod.fst = List.range ([10, 20] : List Nat).length :=
  mappedDataset_order_preserving [10, 20] (fun x => x + 1) 2 (by decide)
    [[(0, 10)], [(1, 20)]] rfl (by decide) _ interleaving_witness_a

theorem interleaving_witness_b :
    Interleaving ([[(0, 5)]].map (workerRun (fun x => x * 2)))
      [Msg.result 0 10, Msg.done] := by
  refine Interleaving.cons _ 0 _ [Msg.done] _ (by decide) ?_
  refine Interleaving.cons _ 0 _ [] _ (by decide) ?_
  exact Interleaving.nil _ (by decide)

/-- Witness for C3 with one worker and one job. -/
theorem mapped_sentinel_shutdown_witness :
    assignJobs [5] 1 = ([5] : List Nat).enum.map some ++ List.replicate 1 none
    ∧ ((assignJobs [5] 1).filterMap id).map Prod.fst
        = List.range ([5] : List Nat).length
    ∧ (assignJobs [5] 1).countP Option.isNone = 1
    ∧ (∀ (jobs : List (Nat × Nat)) (junk : List (Option (Nat × Nat))),
        workerRunRaw (fun x => x * 2) (jobs.map some ++ none :: junk)
          = jobs.map (fun p => Msg.result p.1 (p.2 * 2)) ++ [Msg.done])
    ∧ ([Msg.result 0 10, Msg.done] : List (Msg Nat)).countP isDone = 1 :=
  mapped_sentinel_shutdown (fun x => x * 2) [5] 1 [[(0, 5)]]
    [Msg.result 0 10, Msg.done] rfl interleaving_witness_b

theorem interleaving_witness_c :
    Interleaving ([[(0, 7)], [(1, 8)]].map (workerRun (fun x => x + 3)))
      [Msg.result 1 11, Msg.done, Msg.result 0 10, Msg.done] := by
  refine Interleaving.cons _ 1 _ [Msg.done] _ (by decide) ?_
  refine Interleaving.cons _ 1 _ [] _ (by decide) ?_
  refine Interleaving.cons _ 0 _ [Msg.done] _ (by decide) ?_
  refine Interleaving.cons _ 0 _ [] _ (by decide) ?_
  exact Interleaving.nil _ (by decide)

/-- Witness for C4: the pending buffer is empty on exit for a concrete
arrival order with a sentinel arriving between results. -/
theorem mapped_pending_buffer_empty_witness :
    (consumeAux 2 0 0 [] [Msg.result 1 11, Msg.done, Msg.result 0 10,
      Msg.done]).2.1 = [] :=
  mapped_pending_buffer_empty [7, 8] (fun x => x + 3) 2 (by decide)
    [[(0, 7)], [(1, 8)]] rfl (by decide) _ interleaving_witness_c

theorem interleaving_witness_d :
    Interleaving ([[], []].map (workerRun (fun x : Nat => x)))
      [Msg.done, Msg.done] := by
  refine Interleaving.cons _ 0 _ [] _ (by decide) ?_
  refine Interleaving.cons _ 1 _ [] _ (by decide) ?_
  exact Interleaving.nil _ (by decide)

/-- Witness for C5 with two workers and an empty source. -/
theorem mapped_empty_source_witness :
    mappedIter 2 [Msg.done, Msg.done] = ([] : List Nat)
    ∧ (consumeAux 2 0 0 [] [(Msg.done : Msg Nat), Msg.done]).2.1 = []
    ∧ (consumeAux 2 0 0 [] [(Msg.done : Msg Nat), Msg.done]).2.2 = []
    ∧ ([Msg.done, Msg.done] : List (Msg Nat)).countP isDone = 2 :=
  mapped_empty_source (fun x : Nat => x) 2 (by decide) [[], []] rfl
    (by decide) _ interleaving_witness_d

/-!
Sequential stages.  `ShuffledDataset.__iter__` accumulates a window `buf`,
flushes it through `random.shuffle` when it reaches `buffer_size`, and
yields a final partial window unshuffled.  The random permutation drawn at
the `k`-th flush is modelled by an oracle `shuffle : Nat → List α → List α`
applied to the window, assumed (where needed) to permute its argument.
-/

/-- The loop of `ShuffledDataset.__iter__`: `buf` is the current window,
`k` counts the flushes performed so far (successive draws of the random
generator). -/
def shuffledGo {α : Type} (shuffle : Nat → List α → List α) (bufferSize : Nat)
    (k : Nat) (buf : List α) : List α → List α
  | [] => buf
  | x :: xs =>
    let b := buf ++ [x]
    if b.length = bufferSize then
      shuffle k b ++ shuffledGo shuffle bufferSize (k + 1) [] xs
    else
      shuffledGo shuffle bufferSize k b xs

/-- `ShuffledDataset.__iter__` on a finite source. -/
def shuffledIter {α : Type} (shuffle : Nat → List α → List α) (bufferSize : Nat)
    (source : List α) : List α :=
  shuffledGo shuffle bufferSize 0 [] source

/-- Claim C6: with `buffer_size = 1` the windowed shuffle is the identity —
every window is a singleton, whose only permutation is itself, and the
final partial window is empty. -/
theorem shuffled_buffer_one_id {α : Type} (shuffle : Nat → List α → List α)
    (hs : ∀ k l, (shuffle k l).Perm l) (source : List α) :
    shuffledIter shuffle 1 source = source := by
  suffices h : ∀ src k, shuffledGo shuffle 1 k [] src = src from h source 0
  intro src
  induction src with
  | nil => intro k; rfl
  | cons x xs ih =>
    intro k
    have h1 : shuffle k [x] = [x] := List.perm_singleton.mp (hs k [x])
    simp only [shuffledGo, List.nil_append, List.length_cons, List.length_nil,
      if_pos]
    rw [h1, ih (k + 1)]
    rfl

/-- Witness for C6 with the identity oracle. -/
theorem shuffled_buffer_one_id_witness :
    shuffledIter (fun _ l => l) 1 [3, 1, 2] = [3, 1, 2] :=
  shuffled_buffer_one_id (fun _ l => l) (fun _ _ => List.Perm.refl _) [3, 1, 2]

/-- Claim C10: with `buffer_size = 0` the length-equality flush check never
fires (a window just extended is nonempty), so the whole source accumulates
and is yielded unshuffled at exhaustion: the output equals the input for
every shuffle oracle, which is never consulted. -/
theorem shuffled_buffer_zero_id {α : Type} (shuffle : Nat → List α → List α)
    (source : List α) :
    shuffledIter shuffle 0 source = source
    ∧ (∀ buf k, shuffledGo shuffle 0 k buf source = buf ++ source) := by
  suffices h : ∀ src buf k, shuffledGo shuffle 0 k buf src = buf ++ src by
    exact ⟨by simpa using h source [] 0, fun buf k => h source buf k⟩
  intro src
  induction src with
  | nil => intro buf k; simp [shuffledGo]
  | cons x xs ih =>
    intro buf k
    simp only [shuffledGo, List.length_append, List.length_cons]
    rw [if_neg (by simp), ih]
    simp

/-!
`BatchedDataset.__iter__` accumulates up to `batch_size` elements, yields
`collate_fn(batch)` at each full batch, and a final partial batch.  The
pre-collation chunks are computed by `batchedGo`; the stage's output maps
`collate_fn` over them.
-/

/-- The loop of `BatchedDataset.__iter__`, returning the successive batches
(before collation) given the current partial `batch`. -/
def batchedGo {α : Type} (batchSize : Nat) (batch : List α) :
    List α → List (List α)
  | [] => if batch.isEmpty then [] else [batch]
  | x :: xs =>
    let b := batch ++ [x]
    if b.length = batchSize then b :: batchedGo batchSize [] xs
    else batchedGo batchSize b xs

/-- The chunks (batches before collation) produced by
`BatchedDataset.__iter__` on a finite source. -/
def batchedChunks {α : Type} (batchSize : Nat) (source : List α) :
    List (List α) :=
  batchedGo batchSize [] source

/-- `BatchedDataset.__iter__`: one collated value per chunk. -/
def batchedIter {α γ : Type} (collate : List α → γ) (batchSize : Nat)
    (source : List α) : List γ :=
  (batchedChunks batchSize source).map collate

/-- Mathematical chunking of a list into consecutive pieces of size `B`
(the head is split off and `B - 1` more elements are taken, so for
`B ≥ 1` each chunk is `l.take B`). -/
def chunkList {α : Type} (B : Nat) : List α → List (List α)
  | [] => []
  | x :: xs => (x :: xs.take (B - 1)) :: chunkList B (xs.drop (B - 1))
termination_by l => l.length
decreasing_by
  simp only [List.length_drop, List.length_cons]
  omega

theorem chunkList_short {α : Type} {B : Nat} {l : List α} (hne : l ≠ [])
    (hlen : l.length ≤ B) : chunkList B l = [l] := by
  cases l with
  | nil => exact absurd rfl hne
  | cons x xs =>
    rw [chunkList]
    simp only [List.length_cons] at hlen
    rw [List.take_of_length_le (by omega), List.drop_of_length_le (by omega)]
    simp [chunkList]

theorem chunkList_append {α : Type} {B : Nat} (hB : 1 ≤ B) (c rest : List α)
    (hc : c.length = B) : chunkList B (c ++ rest) = c :: chunkList B rest := by
  cases c with
  | nil => simp at hc; omega
  | cons y c' =>
    simp only [List.length_cons] at hc
    rw [List.cons_append, chunkList]
    rw [List.take_left' (by omega), List.drop_left' (by omega)]

theorem batchedGo_eq {α : Type} {B : Nat} (hB : 1 ≤ B) :
    ∀ (src buf : List α), buf.length < B →
      batchedGo B buf src = chunkList B (buf ++ src) := by
  intro src
  induction src with
  | nil =>
    intro buf hbuf
    rw [List.append_nil, batchedGo]
    cases hbe : buf.isEmpty
    · have hne : buf ≠ [] := by
        intro h
        rw [h] at hbe
        simp at hbe
      rw [if_neg (by simp [hbe]), chunkList_short hne (Nat.le_of_lt hbuf)]
    · have hb : buf = [] := List.isEmpty_iff.mp hbe
      subst hb
      simp [chunkList]
  | cons x xs ih =>
    intro buf hbuf
    rw [batchedGo]
    by_cases hfull : (buf ++ [x]).length = B
    · rw [if_pos hfull]
      have h2 : buf ++ x :: xs = (buf ++ [x]) ++ xs := by simp
      rw [h2, chunkList_append hB _ _ hfull, ih [] (by simpa using hB)]
      simp
    · rw [if_neg hfull]
      have hlen2 : (buf ++ [x]).length < B := by
        simp only [List.length_append, List.length_cons, List.length_nil] at hfull ⊢
        omega
      rw [ih (buf ++ [x]) hlen2]
      simp

theorem chunkList_flatten {α : Type} (B : Nat) :
    ∀ l : List α, (chunkList B l).flatten = l := by
  intro l
  induction l using chunkList.induct B with
  | case1 => simp [chunkList]
  | case2 x xs ih =>
    rw [chunkList]
    simp only [List.flatten_cons, ih]
    simp

theorem chunkList_length {α : Type} {B : Nat} (hB : 1 ≤ B) :
    ∀ l : List α, (chunkList B l).length = (l.length + B - 1) / B := by
  intro l
  induction l using chunkList.induct B with
  | case1 =>
    simp only [chunkList, List.length_nil]
    rw [Nat.div_eq_of_lt (by omega)]
  | case2 x xs ih =>
    rw [chunkList]
    simp only [List.length_cons, ih, List.length_drop]
    by_cases hbig : B - 1 <= xs.length
    · have h2 : xs.length - (B - 1) + B - 1 + B = xs.length + B := by omega
      have h3 : xs.length + 1 + B - 1 = (xs.length - (B - 1) + B - 1) + B := by omega
      rw [h3, Nat.add_div_right _ (by omega)]
    · have h2 : xs.length - (B - 1) = 0 := by omega
      rw [h2]
      simp only [Nat.zero_add]
      have h3 : (B - 1) / B = 0 := Nat.div_eq_of_lt (by omega)
      rw [h3]
      have h4 : xs.length + 1 + B - 1 = xs.length + B := by omega
      rw [h4]
      have h5 : xs.length + B = xs.length + 1 * B := by omega
      rw [h5, Nat.add_mul_div_right _ _ (by omega : 0 < B)]
      have h6 : xs.length / B = 0 := Nat.div_eq_of_lt (by omega)
      omega

theorem chunkList_eq_nil_iff {α : Type} {B : Nat} {l : List α} :
    chunkList B l = [] ↔ l = [] := by
  cases l with
  | nil => simp [chunkList]
  | cons x xs => rw [chunkList]; simp

theorem chunkList_sizes {α : Type} {B : Nat} (hB : 1 ≤ B) :
    ∀ l : List α,
      (∀ c ∈ (chunkList B l).dropLast, c.length = B)
      ∧ (∀ c, (chunkList B l).getLast? = some c →
          c.length = if l.length % B = 0 then B else l.length % B)
      ∧ (∀ c ∈ chunkList B l, c ≠ [] ∧ c.length ≤ B) := by
  intro l
  induction l using chunkList.induct B with
  | case1 => simp [chunkList]
  | case2 x xs ih =>
    rw [chunkList]
    by_cases hrest : xs.drop (B - 1) = []
    · have hxs : xs.length ≤ B - 1 := by
        have := congrArg List.length hrest
        simp only [List.length_drop, List.length_nil] at this
        omega
      have hC : chunkList B (xs.drop (B - 1)) = [] := by
        rw [hrest]
        simp [chunkList]
      rw [hC]
      have hlenc : (x :: xs.take (B - 1)).length = xs.length + 1 := by
        simp only [List.length_cons, List.length_take]
        omega
      refine ⟨by simp, ?_, ?_⟩
      · intro c hc
        simp only [List.getLast?_cons, List.getLast?_nil, Option.getD_none,
          Option.some_inj] at hc
        subst hc
        rw [hlenc]
        simp only [List.length_cons]
        by_cases hfull : xs.length + 1 = B
        · rw [hfull, Nat.mod_self, if_pos rfl]
        · rw [Nat.mod_eq_of_lt (by omega), if_neg (by omega)]
      · intro c hc
        simp only [List.mem_singleton] at hc
        subst hc
        exact ⟨by simp, by rw [hlenc]; omega⟩
    · have hxs : B - 1 < xs.length := by
        by_contra hcon
        push_neg at hcon
        exact hrest (List.drop_eq_nil_of_le hcon)
      have hC : chunkList B (xs.drop (B - 1)) ≠ [] := by
        rw [Ne, chunkList_eq_nil_iff]
        exact hrest
      have hlenc : (x :: xs.take (B - 1)).length = B := by
        simp only [List.length_cons, List.length_take]
        omega
      rcases ih with ⟨ih1, ih2, ih3⟩
      refine ⟨?_, ?_, ?_⟩
      · intro c hc
        rcases List.exists_cons_of_ne_nil hC with ⟨c0, C', hCeq⟩
        rw [hCeq, List.dropLast_cons₂, ← hCeq] at hc
        rcases List.mem_cons.mp hc with rfl | hc'
        · exact hlenc
        · exact ih1 c hc'
      · intro c hc
        rcases List.exists_cons_of_ne_nil hC with ⟨c0, C', hCeq⟩
        rw [hCeq, List.getLast?_cons_cons, ← hCeq] at hc
        have := ih2 c hc
        have hmod : (xs.length + 1) % B = (xs.length - (B - 1)) % B := by
          rw [Nat.mod_eq_sub_mod (by omega)]
          congr 1
          omega
        rw [List.length_drop] at this
        simp only [List.length_cons, hmod]
        exact this
      · intro c hc
        rcases List.mem_cons.mp hc with rfl | hc'
        · exact ⟨by simp, by rw [hlenc]⟩
        · exact ih3 c hc'

/-!
`BucketDataset.__iter__` (tensor2tensor bucketing): each sample's length
picks the first boundary at least as large (`for i, boundary in
enumerate(...): if length <= boundary: ... break`); the sample joins bucket
`i`, which is flushed when it reaches `batch_sizes[i]`; samples longer than
every boundary match no bucket and are discarded; at exhaustion the
non-empty buckets are flushed in bucket order.  The configuration is
assumed well-formed (`batch_sizes` parallel to `boundaries`), so the
Python indexing `batch_sizes[i]` is embedded as `getD i 0`.
-/

/-- The bucket chosen for one sample: the first index whose boundary is at
least the sample's length. -/
def bucketIndex {α : Type} (lengthFn : α → Nat) (boundaries : List Nat)
    (x : α) : Option Nat :=
  boundaries.findIdx? (fun b => lengthFn x ≤ b)

/-- The loop of `BucketDataset.__iter__`, returning the successive batches
before collation; `buckets` is the current per-boundary accumulation. -/
def bucketGo {α : Type} (lengthFn : α → Nat) (boundaries batchSizes : List Nat)
    (buckets : List (List α)) : List α → List (List α)
  | [] => buckets.filter (fun b => !b.isEmpty)
  | x :: xs =>
    match bucketIndex lengthFn boundaries x with
    | none => bucketGo lengthFn boundaries batchSizes buckets xs
    | some i =>
      if (buckets.getD i [] ++ [x]).length = batchSizes.getD i 0 then
        (buckets.getD i [] ++ [x])
          :: bucketGo lengthFn boundaries batchSizes (buckets.set i []) xs
      else
        bucketGo lengthFn boundaries batchSizes
          (buckets.set i (buckets.getD i [] ++ [x])) xs

/-- The batches (before collation) produced by `BucketDataset.__iter__` on
a finite source, starting from empty buckets. -/
def bucketChunks {α : Type} (lengthFn : α → Nat)
    (boundaries batchSizes : List Nat) (source : List α) : List (List α) :=
  bucketGo lengthFn boundaries batchSizes (boundaries.map fun _ => []) source

/-- `BucketDataset.__iter__`: one collated value per batch. -/
def bucketIter {α γ : Type} (collate : List α → γ) (lengthFn : α → Nat)
    (boundaries batchSizes : List Nat) (source : List α) : List γ :=
  (bucketChunks lengthFn boundaries batchSizes source).map collate

/-- Claim C7: for batch size `B ≥ 1` the fixed batch stage yields
`collate_fn` over the consecutive chunks of the input in order:
`ceil(N/B)` batches whose concatenation is the input, each of size `B`
except the final one, of size `N mod B` when `B` does not divide `N`. -/
theorem batched_spec {α γ : Type} (collate : List α → γ) (B : Nat) (hB : 1 ≤ B)
    (src : List α) :
    batchedIter collate B src = (chunkList B src).map collate
    ∧ (chunkList B src).flatten = src
    ∧ (chunkList B src).length = (src.length + B - 1) / B
    ∧ (∀ c ∈ (chunkList B src).dropLast, c.length = B)
    ∧ (∀ c, (chunkList B src).getLast? = some c →
        c.length = if src.length % B = 0 then B else src.length % B) := by
  refine ⟨?_, chunkList_flatten B src, chunkList_length hB src,
    (chunkList_sizes hB src).1, (chunkList_sizes hB src).2.1⟩
  unfold batchedIter batchedChunks
  rw [batchedGo_eq hB src [] (by simp; omega)]
  simp

/-- Witness for C7: `batch_size = 4` over 10 elements gives the chunks of
sizes 4, 4, 2 whose concatenation is the input. -/
theorem batched_spec_witness :
    batchedIter (fun l => l) 4 [0, 1, 2, 3, 4, 5, 6, 7, 8, 9]
      = (chunkList 4 [0, 1, 2, 3, 4, 5, 6, 7, 8, 9]).map (fun l => l)
    ∧ (chunkList 4 [0, 1, 2, 3, 4, 5, 6, 7, 8, 9]).flatten
        = [0, 1, 2, 3, 4, 5, 6, 7, 8, 9]
    ∧ (chunkList 4 [0, 1, 2, 3, 4, 5, 6, 7, 8, 9]).length = 3
    ∧ (chunkList 4 ([0, 1, 2, 3, 4, 5, 6, 7, 8, 9] : List Nat)).map List.length
        = [4, 4, 2] := by
  have h := batched_spec (fun l : List Nat => l) 4 (by omega)
    [0, 1, 2, 3, 4, 5, 6, 7, 8, 9]
  refine ⟨h.1, h.2.1, h.2.2.1, ?_⟩
  simp [chunkList]

theorem bucketGo_mem_bounded {α : Type} (lengthFn : α → Nat)
    (boundaries batchSizes : List Nat) :
    ∀ (src : List α) (buckets : List (List α)),
      (∀ bu ∈ buckets, ∀ y ∈ bu, ∃ b ∈ boundaries, lengthFn y ≤ b) →
      ∀ c ∈ bucketGo lengthFn boundaries batchSizes buckets src,
        ∀ y ∈ c, ∃ b ∈ boundaries, lengthFn y ≤ b := by
  intro src
  induction src with
  | nil =>
    intro buckets hbu c hc y hy
    exact hbu c (List.mem_filter.mp hc).1 y hy
  | cons x xs ih =>
    intro buckets hbu c hc y hy
    rw [bucketGo] at hc
    cases hidx : bucketIndex lengthFn boundaries x with
    | none =>
      rw [hidx] at hc
      exact ih buckets hbu c hc y hy
    | some i =>
      rw [hidx] at hc
      have hc2 : c ∈ (if (buckets.getD i [] ++ [x]).length = batchSizes.getD i 0
          then (buckets.getD i [] ++ [x])
            :: bucketGo lengthFn boundaries batchSizes (buckets.set i []) xs
          else bucketGo lengthFn boundaries batchSizes
            (buckets.set i (buckets.getD i [] ++ [x])) xs) := hc
      have hxle : ∃ b ∈ boundaries, lengthFn x ≤ b := by
        rcases List.findIdx?_eq_some_iff_getElem.mp hidx with ⟨hlt, hp, _⟩
        exact ⟨boundaries[i], List.getElem_mem hlt, by simpa using hp⟩
      have hnewb : ∀ y' ∈ buckets.getD i [] ++ [x],
          ∃ b ∈ boundaries, lengthFn y' ≤ b := by
        intro y' hy'
        rcases List.mem_append.mp hy' with hy1 | hy1
        · cases hg : buckets[i]? with
          | none =>
            rw [List.getD_eq_getElem?_getD, hg] at hy1
            simp at hy1
          | some bu =>
            rw [List.getD_eq_getElem?_getD, hg] at hy1
            have hbm : bu ∈ buckets := by
              rcases List.getElem?_eq_some_iff.mp hg with ⟨hh, hh2⟩
              exact hh2 ▸ List.getElem_mem hh
            exact hbu bu hbm y' hy1
        · rcases List.mem_singleton.mp hy1 with rfl
          exact hxle
      have hsetOk : ∀ (newb : List α),
          (∀ y' ∈ newb, ∃ b ∈ boundaries, lengthFn y' ≤ b) →
          ∀ bu ∈ buckets.set i newb, ∀ y' ∈ bu, ∃ b ∈ boundaries, lengthFn y' ≤ b := by
        intro newb hnew bu hbm y' hy'
        rcases List.mem_or_eq_of_mem_set hbm with h1 | rfl
        · exact hbu bu h1 y' hy'
        · exact hnew y' hy'
      by_cases hfull : (buckets.getD i [] ++ [x]).length = batchSizes.getD i 0
      · rw [if_pos hfull] at hc2
        rcases List.mem_cons.mp hc2 with rfl | hc'
        · exact hnewb y hy
        · exact ih _ (hsetOk [] (by simp)) c hc' y hy
      · rw [if_neg hfull] at hc2
        exact ih _ (hsetOk _ hnewb) c hc2 y hy

/-- Claim C8: bucket assignment.  With strictly increasing boundaries, an
element whose length equals the boundary `b_i` is assigned to bucket `i`
itself (never the next); an element longer than every boundary matches no
bucket; and every element appearing in any emitted batch has length at
most some boundary — over-length elements are silently dropped. -/
theorem bucket_assignment_spec {α : Type} (lengthFn : α → Nat)
    (boundaries batchSizes : List Nat) :
    (∀ (x : α) (i b : Nat), boundaries.Pairwise (· < ·) →
        boundaries[i]? = some b → lengthFn x = b →
        bucketIndex lengthFn boundaries x = some i)
    ∧ (∀ x : α, (∀ b ∈ boundaries, b < lengthFn x) →
        bucketIndex lengthFn boundaries x = none)
    ∧ (∀ (src c : List α) (y : α),
        c ∈ bucketChunks lengthFn boundaries batchSizes src → y ∈ c →
        ∃ b ∈ boundaries, lengthFn y ≤ b) := by
  refine ⟨?_, ?_, ?_⟩
  · intro x i b hsort hget hx
    rcases List.getElem?_eq_some_iff.mp hget with ⟨hlt, hb⟩
    apply List.findIdx?_eq_some_iff_getElem.mpr
    refine ⟨hlt, by simp [hb, hx], ?_⟩
    intro j hj
    have hjlt : boundaries[j] < boundaries[i] :=
      List.pairwise_iff_getElem.mp hsort j i (Nat.lt_trans hj hlt) hlt hj
    simp only [decide_eq_true_eq, Bool.not_eq_true, decide_eq_false_iff_not]
    omega
  · intro x hall
    apply List.findIdx?_eq_none_iff.mpr
    intro b hb
    simp only [decide_eq_false_iff_not]
    have := hall b hb
    omega
  · intro src c y hc hy
    refine bucketGo_mem_bounded lengthFn boundaries batchSizes src _ ?_ c hc y hy
    intro bu hbu
    rcases List.mem_map.mp hbu with ⟨_, _, rfl⟩
    simp

/-- Witness for C8 on the spec scenario: boundaries `[5, 10]`, batch sizes
`[2, 2]`, identity length; length exactly 5 goes to bucket 0, length 12 is
dropped, and every batched element is bounded by a boundary. -/
theorem bucket_assignment_spec_witness :
    bucketIndex (fun n : Nat => n) [5, 10] 5 = some 0
    ∧ bucketIndex (fun n : Nat => n) [5, 10] 12 = none
    ∧ (∃ b ∈ [5, 10], (fun n : Nat => n) 3 ≤ b) := by
  have h := bucket_assignment_spec (fun n : Nat => n) [5, 10] [2, 2]
  refine ⟨h.1 5 0 5 (by decide) rfl rfl, h.2.1 12 (by decide), ?_⟩
  refine h.2.2 [3, 7, 4, 12, 6] [3, 4] 3 ?_ (by decide)
  show [3, 4] ∈ bucketChunks (fun n => n) [5, 10] [2, 2] [3, 7, 4, 12, 6]
  decide

theorem batchedGo_ne_nil {α : Type} (B : Nat) :
    ∀ (src buf : List α), ∀ c ∈ batchedGo B buf src, c ≠ [] := by
  intro src
  induction src with
  | nil =>
    intro buf c hc
    rw [batchedGo] at hc
    cases hbe : buf.isEmpty
    · rw [if_neg (by simp [hbe])] at hc
      rcases List.mem_singleton.mp hc with rfl
      intro h
      rw [h] at hbe
      simp at hbe
    · rw [if_pos (by simp [hbe])] at hc
      simp at hc
  | cons x xs ih =>
    intro buf c hc
    rw [batchedGo] at hc
    by_cases hfull : (buf ++ [x]).length = B
    · rw [if_pos hfull] at hc
      rcases List.mem_cons.mp hc with rfl | hc'
      · simp
      · exact ih [] c hc'
    · rw [if_neg hfull] at hc
      exact ih (buf ++ [x]) c hc

theorem bucketGo_ne_nil {α : Type} (lengthFn : α → Nat)
    (boundaries batchSizes : List Nat) :
    ∀ (src : List α) (buckets : List (List α)),
      ∀ c ∈ bucketGo lengthFn boundaries batchSizes buckets src, c ≠ [] := by
  intro src
  induction src with
  | nil =>
    intro buckets c hc
    have h2 := (List.mem_filter.mp hc).2
    intro h
    rw [h] at h2
    simp at h2
  | cons x xs ih =>
    intro buckets c hc
    rw [bucketGo] at hc
    cases hidx : bucketIndex lengthFn boundaries x with
    | none =>
      rw [hidx] at hc
      exact ih buckets c hc
    | some i =>
      rw [hidx] at hc
      have hc2 : c ∈ (if (buckets.getD i [] ++ [x]).length = batchSizes.getD i 0
          then (buckets.getD i [] ++ [x])
            :: bucketGo lengthFn boundaries batchSizes (buckets.set i []) xs
          else bucketGo lengthFn boundaries batchSizes
            (buckets.set i (buckets.getD i [] ++ [x])) xs) := hc
      by_cases hfull : (buckets.getD i [] ++ [x]).length = batchSizes.getD i 0
      · rw [if_pos hfull] at hc2
        rcases List.mem_cons.mp hc2 with rfl | hc'
        · simp
        · exact ih _ c hc'
      · rw [if_neg hfull] at hc2
        exact ih _ c hc2

/-- Claim C9: `collate_fn` is never applied to an empty list — every batch
emitted by the fixed batch stage and every batch emitted by the bucketed
batch stage (the final per-bucket flush skips empty buckets) is
non-empty, for every source and configuration. -/
theorem collate_never_empty {α : Type} (lengthFn : α → Nat)
    (boundaries batchSizes : List Nat) (B : Nat) (src : List α) :
    (∀ c ∈ batchedChunks B src, c ≠ [])
    ∧ (∀ c ∈ bucketChunks lengthFn boundaries batchSizes src, c ≠ []) :=
  ⟨fun c hc => batchedGo_ne_nil B src [] c hc,
   fun c hc => bucketGo_ne_nil lengthFn boundaries batchSizes src _ c hc⟩

/-- Witness for C9 on concrete batch and bucket runs. -/
theorem collate_never_empty_witness :
    ([1, 2] : List Nat) ≠ [] ∧ ([3, 4] : List Nat) ≠ [] :=
  ⟨(collate_never_empty (fun n : Nat => n) [5, 10] [2, 2] 2 [1, 2, 3]).1
      [1, 2] (by decide),
   (collate_never_empty (fun n : Nat => n) [5, 10] [2, 2] 2
      [3, 7, 4, 12, 6]).2 [3, 4] (by decide)⟩
